import Mathlib

/-!
# Verification of the Mescamit obfuscated-variable container (`CvarObfuscated.hpp`)

This file is a shallow embedding of the core of the Mescamit variable
obfuscator (class `CvarMasked`, class `CvarObfuscated`, second/later variant
of the header unless noted) together with proofs about it.

Modelling conventions:
* Machine integers are `Nat` (bit patterns), with `% 2^w` made explicit where
  the C++ would overflow/wrap; `intptr_t` addresses are `Int`.
* Byte buffers are `List Nat` (each entry one byte).
* Every call to the C runtime `rand()` is replaced by an explicit field of a
  `Draws` record, so theorems quantify over all possible random draws.
* The pointer chain (`_ptrFold` / `_ptrUnfold`) is modelled separately on an
  explicit address/memory model; the buffer-level container model identifies
  the result of `_ptrUnfold` with the start of the corresponding buffer, which
  is what the chain theorems establish (all allocations on the 64-bit targets
  are 8-byte aligned).
* `_flush` and `_alloc` only free/allocate heap cells and shuffle the slot
  order of the specification records; they have no effect on the values
  observable through subsequent `_set`/`_get`, so the value-level state omits
  them.
* C++ `/` on `intptr_t` truncates toward zero, which is `Int.tdiv` here.
-/

/-- The `std::numeric_limits<uint32_t>::max()`. -/
def u32lim : Nat := 2 ^ 32 - 1

/-- The `std::numeric_limits<uint8_t>::max()`. -/
def u8lim : Nat := 2 ^ 8 - 1

/-- The `std::numeric_limits<intptr_t>::max()` on the 64-bit target. -/
def uptrlim : Nat := 2 ^ 63 - 1

/-- Model of `class CvarMasked`: a stored value together with its mask.
`m_val` holds the value XORed with `m_msk`. -/
structure CvarMasked where
  m_val : Nat
  m_msk : Nat

/-- The `CvarMasked::set`: `m_msk = rand() % std::numeric_limits<T>::max();
m_val = _val ^ m_msk;`.  `lim` is the `numeric_limits` bound for the
instantiated scalar type, `r` the raw `rand()` draw. -/
def CvarMasked.set (lim r v : Nat) : CvarMasked :=
  let msk := r % lim
  { m_val := v ^^^ msk, m_msk := msk }

/-- The `CvarMasked::get`: returns `m_val ^ m_msk`. -/
def CvarMasked.get (c : CvarMasked) : Nat :=
  c.m_val ^^^ c.m_msk

/-- Little-endian byte representation of a scalar over `w` bytes,
as produced by `memcpy` from the scalar on the x86-64 target. -/
def bytesLE : Nat → Nat → List Nat
  | 0, _ => []
  | w + 1, v => v % 256 :: bytesLE w (v / 256)

/-- Scalar reconstruction from little-endian bytes, as produced by
`memcpy` into the scalar (`_return` for builtin types). -/
def fromBytesLE : List Nat → Nat
  | [] => 0
  | b :: bs => b + 256 * fromBytesLE bs

/-- The XOR pass of `_obfuscateVal` (set side):
`for (int i = 0; i < size; ++i) buff[i] ^= key[keyOffset + ((i + keyReadOffset) % keySize)];`
written as a recursion carrying the loop index `i`. -/
def obfuscateFrom (key : List Nat) (koff ksize kread : Nat) : Nat → List Nat → List Nat
  | _, [] => []
  | i, b :: rest =>
      (b ^^^ key.getD (koff + ((i + kread) % ksize)) 0)
        :: obfuscateFrom key koff ksize kread (i + 1) rest

/-- The XOR pass of `_get` (read side): the key pointer is pre-shifted by
`keyOffset`, then indexed at `(keyReadOffset + i) % keySize`, so the byte read
is `key[keyOffset + ((keyReadOffset + i) % keySize)]`. -/
def deobfuscateFrom (key : List Nat) (koff ksize kread : Nat) : Nat → List Nat → List Nat
  | _, [] => []
  | i, b :: rest =>
      (b ^^^ key.getD (koff + ((kread + i) % ksize)) 0)
        :: deobfuscateFrom key koff ksize kread (i + 1) rest

/-- The `_copyVal_noisePadding(beg, eng, ptr)`:
`for (int i = beg; i < eng; ++i) ptr[i] = rand() % 256;`
written as a recursion over the buffer carrying the running index. -/
def noisePaddingFrom (beg eng : Nat) (noise : Nat → Nat) : Nat → List Nat → List Nat
  | _, [] => []
  | i, b :: rest =>
      (if beg ≤ i ∧ i < eng then noise i % 256 else b)
        :: noisePaddingFrom beg eng noise (i + 1) rest

/-- The `memcpy(buf + off, src, src.length)`: overwrite `src.length` bytes of
`buf` starting at index `off`. -/
def writeBytes (off : Nat) (src : List Nat) (buf : List Nat) : List Nat :=
  buf.take off ++ src ++ buf.drop (off + src.length)

/-- The per-type serialisation interface of the container
(`_sizeVal` / `_castVal` / `_return` template specialisations), plus the
value `T()` used by `_get` when auto-initialising an empty container. -/
structure Codec (α : Type) where
  size : α → Nat
  enc : α → List Nat
  dec : List Nat → α
  dflt : α

/-- One `rand()` draw per call site of a single `_set` execution.
Streams (`Nat → Nat`) stand for the successive draws of the fill loops. -/
structure Draws where
  rKeyOff : Nat
  rKeySize : Nat
  rKeyPad : Nat
  rKeyRead : Nat
  rKeyHop : Nat
  keyNoise : Nat → Nat
  rValOff : Nat
  rValPad : Nat
  rValHop : Nat
  valNoise : Nat → Nat
  mKeyOff : Nat
  mKeySize : Nat
  mKeyHop : Nat
  mKeyRead : Nat
  mValOff : Nat
  mValSize : Nat
  mValHop : Nat

/-- Observable state of one `CvarObfuscated<T>` container: the `m_bEmpty`
flag, the key and value byte buffers, and the `SspecsKey` / `SspecsVal`
masked specification fields (`m_mvOffset`, `m_mvSize`, `m_mvHopNbr`,
`m_mvReadOfsset`).  The chain handles (`m_mvPtr`) resolve to the buffer
starts and are modelled by the buffers themselves (see the chain model
below). -/
structure ObfState where
  m_bEmpty : Bool
  keyBuff : List Nat
  keyOffsetM : CvarMasked
  keySizeM : CvarMasked
  keyHopM : CvarMasked
  keyReadM : CvarMasked
  valBuff : List Nat
  valOffsetM : CvarMasked
  valSizeM : CvarMasked
  valHopM : CvarMasked

/-- A freshly constructed container: `m_bEmpty = true`, everything else
indeterminate in C++ (never read before the first `_set`); zeros here. -/
def initState : ObfState :=
  { m_bEmpty := true
    keyBuff := []
    keyOffsetM := ⟨0, 0⟩
    keySizeM := ⟨0, 0⟩
    keyHopM := ⟨0, 0⟩
    keyReadM := ⟨0, 0⟩
    valBuff := []
    valOffsetM := ⟨0, 0⟩
    valSizeM := ⟨0, 0⟩
    valHopM := ⟨0, 0⟩ }

/-- The `_genKey` (performance mode disabled, its default): samples
`iKeyOffset = rand() % 24 + 8`, `iKeySize = rand() % 32 + 32`,
`iAllocSize = iKeySize + iKeyOffset + 8 + rand() % 24`,
`iReadOffset = rand() % iKeySize`, `hop = rand() % 7 + 1`, stores them in the
masked specification fields and fills a fresh key buffer of `iAllocSize`
random bytes. -/
def genKey (d : Draws) (s : ObfState) : ObfState :=
  let iKeyOffset := d.rKeyOff % 24 + 8
  let iKeySize := d.rKeySize % 32 + 32
  let iAllocSize := iKeySize + iKeyOffset + 8 + d.rKeyPad % 24
  let iReadOffset := d.rKeyRead % iKeySize
  let ui8KeyHopNbr := d.rKeyHop % 7 + 1
  { s with
    keyOffsetM := CvarMasked.set u32lim d.mKeyOff iKeyOffset
    keySizeM := CvarMasked.set u32lim d.mKeySize iKeySize
    keyHopM := CvarMasked.set u8lim d.mKeyHop ui8KeyHopNbr
    keyReadM := CvarMasked.set u8lim d.mKeyRead iReadOffset
    keyBuff := (List.range iAllocSize).map fun i => d.keyNoise i % 256 }

/-- The `_obfuscateVal(buff, size)`: XOR the value bytes against the key,
reading the key layout back out of the masked specification fields. -/
def obfuscateVal (s : ObfState) (buff : List Nat) : List Nat :=
  obfuscateFrom s.keyBuff s.keyOffsetM.get s.keySizeM.get s.keyReadM.get 0 buff

/-- The `_copyVal(val)` of the second variant: samples
`iValOffset = rand() % 24 + 8` and the total allocation
`iValSize = size + iValOffset + 8 + rand() % 24`, stores the masked
specifications, zero-initialises the buffer (`memset`), runs the two
`_copyVal_noisePadding` calls exactly as written in the source — note the
second call's bounds `(iValOffset + iValSize, iSize)` where `iValSize` is
the TOTAL allocation, so its range is empty — then writes the serialised
value at `iValOffset` and XORs it in place (`_castVal` + `_obfuscateVal`). -/
def copyVal {α : Type} (c : Codec α) (d : Draws) (s : ObfState) (v : α) : ObfState :=
  let iSize := c.size v
  let iValOffset := d.rValOff % 24 + 8
  let iValSize := iSize + iValOffset + 8 + d.rValPad % 24
  let ui8ValHopNbr := d.rValHop % 7 + 1
  let s1 := { s with
    valOffsetM := CvarMasked.set u32lim d.mValOff iValOffset
    valSizeM := CvarMasked.set u32lim d.mValSize iSize
    valHopM := CvarMasked.set u8lim d.mValHop ui8ValHopNbr }
  let buf0 := List.replicate iValSize 0
  let buf1 := noisePaddingFrom 0 iValOffset d.valNoise 0 buf0
  let buf2 := noisePaddingFrom (iValOffset + iValSize) iSize d.valNoise 0 buf1
  let buf3 := writeBytes iValOffset (obfuscateVal s1 (c.enc v)) buf2
  { s1 with valBuff := buf3 }

namespace CvarObfuscated

/-- The `_set(val)` of the second variant: `_flush(); _alloc(); _genKey();`
(heap bookkeeping only for flush/alloc), clear `m_bEmpty`, `_copyVal(val)`. -/
def set {α : Type} (c : Codec α) (d : Draws) (s : ObfState) (v : α) : ObfState :=
  let s1 := genKey d s
  let s2 := { s1 with m_bEmpty := false }
  copyVal c d s2 v

/-- The body of `_get` after the `m_bEmpty` check: read the masked
specifications back, take `iValSize` bytes of the value buffer starting at
`iValOffset` (`memcpy`), run the per-byte XOR pass, and deserialise
(`_return`).  The XOR loop's counter is a `uint8_t` compared against the
`int` `iValSize`; it reaches `iValSize` (and the loop exits) exactly when
`iValSize < 256` — see `u8LoopExits_iff` below — so a size of 256 or more
is modelled as `none` (the loop never terminates). -/
def readCore {α : Type} (c : Codec α) (s : ObfState) : Option α :=
  let iValSize := s.valSizeM.get
  let iValOffset := s.valOffsetM.get
  let iKeySize := s.keySizeM.get
  let iKeyOffset := s.keyOffsetM.get
  let iKeyReadOffset := s.keyReadM.get
  let bytes := (s.valBuff.drop iValOffset).take iValSize
  if iValSize < 256 then
    some (c.dec (deobfuscateFrom s.keyBuff iKeyOffset iKeySize iKeyReadOffset 0 bytes))
  else none

/-- The `_get()` of the second variant: `if (m_bEmpty) _set(T());` then the read
body.  Returns the read result together with the (possibly auto-initialised)
container state. -/
def get {α : Type} (c : Codec α) (d : Draws) (s : ObfState) : Option α × ObfState :=
  if s.m_bEmpty then
    let s1 := set c d s c.dflt
    (readCore c s1, s1)
  else (readCore c s, s)

/-- The `_get()` of the FIRST variant of the header, which instead throws:
`if (m_bEmpty) throw("The obfuscated variable has not yet been initialized.");`. -/
def readFirstVariant {α : Type} (c : Codec α) (s : ObfState) : Except String (Option α) :=
  if s.m_bEmpty then
    Except.error "The obfuscated variable has not yet been initialized."
  else Except.ok (readCore c s)

end CvarObfuscated

/-- Value of the `uint8_t` loop counter of `_get`'s XOR pass after `n`
increments (`++i` wraps modulo 256). -/
def u8LoopCounter (n : Nat) : Nat := n % 256

/-- The XOR pass of `_get` exits iff after some number of increments the
loop condition `i < iValSize` fails. -/
def u8LoopExits (bound : Nat) : Prop := ∃ n, ¬ (u8LoopCounter n < bound)

/-- The `_ptrUnfold_Walker`: `iDiff = (**ptr) / 8; (*ptr) -= iDiff;`.  The `/` on
`intptr_t` truncates toward zero (`Int.tdiv`); the `-=` is pointer arithmetic
on an `intptr_t *`, so it moves the address by `8 * iDiff` bytes on the
64-bit target. -/
def ptrUnfold_Walker (mem : Int → Int) (p : Int) : Int :=
  p - 8 * (Int.tdiv (mem p) 8)

/-- The `_ptrUnfold`: walk `hop` times from the stored handle address. -/
def ptrUnfold (mem : Int → Int) : Nat → Int → Int
  | 0, p => p
  | n + 1, p => ptrUnfold mem n (ptrUnfold_Walker mem p)

/-- The cell contents written by `_ptrFold` when the chain cells are
allocated at the addresses `cells` (in allocation order, the head being the
handle stored in the masked pointer) and the byte buffer starts at `pay`:
every cell but the last holds the distance to the next cell
(`*a_i = a_i - a_{i+1}`), the last holds the distance to the buffer
(`*a_last = a_last - pay`). -/
def chainStore : List Int → Int → List (Int × Int)
  | [], _ => []
  | [a], pay => [(a, a - pay)]
  | a :: b :: rest, pay => (a, a - b) :: chainStore (b :: rest) pay

/-- Memory as left by `_ptrFold`: reading an address returns the chain cell
content stored there (0 elsewhere; the walk never reads elsewhere). -/
def chainMem (cells : List Int) (pay : Int) : Int → Int := fun a =>
  match (chainStore cells pay).find? (fun q => q.1 == a) with
  | some q => q.2
  | none => 0

/-- The `int32_t` / `int` codec: `sizeof = 4`, `memcpy` of the 4-byte two's
complement little-endian object representation; values are bit patterns
`< 2^32`; `T()` is 0. -/
def int32Codec : Codec Nat :=
  { size := fun _ => 4
    enc := fun v => bytesLE 4 v
    dec := fromBytesLE
    dflt := 0 }

/-- The `std::string` codec: `_sizeVal` is the content length, `_castVal` copies
the raw content bytes, `_return` assigns them back.  Values are byte lists. -/
def strCodec : Codec (List Nat) :=
  { size := fun s => s.length
    enc := fun s => s
    dec := fun bs => bs
    dflt := [] }

/-- The `_return` for `std::vector<int64_t>`: repeatedly `memcpy` 8-byte chunks
off the front of the buffer and push the reconstructed elements. -/
def decodeVec : List Nat → List Nat
  | [] => []
  | b :: rest => fromBytesLE (b :: rest.take 7) :: decodeVec (rest.drop 7)
termination_by l => l.length
decreasing_by
  simp only [List.length_drop, List.length_cons]
  omega

/-- The `std::vector<int64_t>` codec: `_sizeVal` is `count * sizeof(int64_t)`,
`_castVal` concatenates the 8-byte element representations in order. -/
def vecI64Codec : Codec (List Nat) :=
  { size := fun xs => xs.length * 8
    enc := fun xs => (xs.map (bytesLE 8)).flatten
    dec := decodeVec
    dflt := [] }

/-- Serialisation of one `std::map<uint8_t, int64_t>` entry (`_castVal`):
the 1-byte key followed by the 8-byte value. -/
def encPair (p : Nat × Nat) : List Nat :=
  bytesLE 1 p.1 ++ bytesLE 8 p.2

/-- The `_castVal` for `std::map<uint8_t, int64_t>`: concatenated `(key, value)`
pairs in iteration (key-sorted) order. -/
def encodeMap (m : List (Nat × Nat)) : List Nat :=
  (m.map encPair).flatten

/-- The pair stream read back by `_return` for the map: repeatedly consume
one key byte and eight value bytes. -/
def parsePairs : List Nat → List (Nat × Nat)
  | [] => []
  | b :: rest => (b, fromBytesLE (rest.take 8)) :: parsePairs (rest.drop 8)
termination_by l => l.length
decreasing_by
  simp only [List.length_drop, List.length_cons]
  omega

/-- The `std::map<uint8_t, int64_t>::insert`: ordered insertion that KEEPS the
existing entry when the key is already present. -/
def mapInsert (k v : Nat) : List (Nat × Nat) → List (Nat × Nat)
  | [] => [(k, v)]
  | p :: rest =>
      if k < p.1 then (k, v) :: p :: rest
      else if k = p.1 then p :: rest
      else p :: mapInsert k v rest

/-- Building a `std::map` by inserting a sequence of pairs in order. -/
def mapOfPairs (l : List (Nat × Nat)) : List (Nat × Nat) :=
  l.foldl (fun acc p => mapInsert p.1 p.2 acc) []

/-- The `_return` for the map: parse the pair stream and insert each pair. -/
def decodeMap (bs : List Nat) : List (Nat × Nat) :=
  mapOfPairs (parsePairs bs)

/-- The `std::map<uint8_t, int64_t>` codec.  A map value is its canonical
iteration sequence: the key-sorted association list.
`_sizeVal` is `count * (sizeof(uint8_t) + sizeof(int64_t))`. -/
def mapCodec : Codec (List (Nat × Nat)) :=
  { size := fun m => m.length * 9
    enc := encodeMap
    dec := decodeMap
    dflt := [] }

/-- A well-formed `std::map<uint8_t, int64_t>` representation: strictly
key-sorted, keys one byte, values 64-bit patterns. -/
def MapCanon (m : List (Nat × Nat)) : Prop :=
  List.Pairwise (fun p q => p.1 < q.1) m ∧ ∀ p ∈ m, p.1 < 256 ∧ p.2 < 2 ^ 64

/-- A fixed-layout aggregate with one padding byte, e.g.
`struct { uint8_t a; /* padding */ uint16_t b; }` with `sizeof = 4`:
a value is its 4-byte object representation, `memcpy`ed verbatim both ways;
byte 1 is padding. -/
def aggCodec : Codec (List Nat) :=
  { size := fun _ => 4
    enc := fun v => v
    dec := fun bs => bs
    dflt := [0, 0, 0, 0] }

/-- Spec-side notion for the padded aggregate (named from the spec's words
"semantically equal"): equality of the meaning-carrying fields, i.e. of all
object-representation bytes except the padding byte at index 1. -/
def semEqAgg (x y : List Nat) : Prop :=
  x.getD 0 0 = y.getD 0 0 ∧ x.getD 2 0 = y.getD 2 0 ∧ x.getD 3 0 = y.getD 3 0

/-- 32-bit two's complement addition on bit patterns (`int` `+`). -/
def int32add (a b : Nat) : Nat := (a + b) % 2 ^ 32

/-- 32-bit two's complement subtraction on bit patterns (`int` `-`). -/
def int32sub (a b : Nat) : Nat := (a + (2 ^ 32 - b % 2 ^ 32)) % 2 ^ 32

namespace CvarObfuscated

/-- Common shape of every compound-assignment operator
(`+= -= *= /= &= |= ^=` and both `++`/`--` forms): under the lock,
`T val(_get() ⊕ _val); _set(val); return val`, where `⊕` is the value
type's native operation, here an arbitrary `f`.  The `_get` divergence for
oversized values propagates as `none`. -/
def opCompound {α : Type} (c : Codec α) (f : α → α → α) (dget dset : Draws)
    (s : ObfState) (k : α) : Option α × ObfState :=
  match CvarObfuscated.get c dget s with
  | (some x, s1) =>
      let val := f x k
      (some val, CvarObfuscated.set c dset s1 val)
  | (none, s1) => (none, s1)

/-- Common shape of every non-compound arithmetic/bitwise operator
(`+ - * / % & | ^ << >>`): under the lock, `return (_get() ⊕ _val);` —
no `_set`, the state componentwise unchanged. -/
def opArith {α : Type} (c : Codec α) (f : α → α → α) (dget : Draws)
    (s : ObfState) (k : α) : Option α × ObfState :=
  let r := CvarObfuscated.get c dget s
  (r.1.map fun x => f x k, r.2)

/-- The `operator++` prefix for `int`: `T val(_get() + 1); _set(val); return val`. -/
def opIncPre (dget dset : Draws) (s : ObfState) : Option Nat × ObfState :=
  match CvarObfuscated.get int32Codec dget s with
  | (some x, s1) =>
      let val := int32add x 1
      (some val, CvarObfuscated.set int32Codec dset s1 val)
  | (none, s1) => (none, s1)

/-- The `operator++(int)` POSTFIX for `int`: the source body is identical to the
prefix form — `T val(_get() + 1); _set(val); return val`. -/
def opIncPost (dget dset : Draws) (s : ObfState) : Option Nat × ObfState :=
  match CvarObfuscated.get int32Codec dget s with
  | (some x, s1) =>
      let val := int32add x 1
      (some val, CvarObfuscated.set int32Codec dset s1 val)
  | (none, s1) => (none, s1)

/-- The `operator--` prefix for `int`: `T val(_get() - 1); _set(val); return val`. -/
def opDecPre (dget dset : Draws) (s : ObfState) : Option Nat × ObfState :=
  match CvarObfuscated.get int32Codec dget s with
  | (some x, s1) =>
      let val := int32sub x 1
      (some val, CvarObfuscated.set int32Codec dset s1 val)
  | (none, s1) => (none, s1)

/-- The `operator--(int)` POSTFIX for `int`: body identical to the prefix form. -/
def opDecPost (dget dset : Draws) (s : ObfState) : Option Nat × ObfState :=
  match CvarObfuscated.get int32Codec dget s with
  | (some x, s1) =>
      let val := int32sub x 1
      (some val, CvarObfuscated.set int32Codec dset s1 val)
  | (none, s1) => (none, s1)

/-- The `operator==` when `T` is a `std::map`: `return (_get() == _vr);` —
natural (element-wise) map equality of the resolved value. -/
def opEqMap (dget : Draws) (s : ObfState) (rhs : List (Nat × Nat)) :
    Option Bool × ObfState :=
  let r := CvarObfuscated.get mapCodec dget s
  (r.1.map fun m => decide (m = rhs), r.2)

/-- The `operator!=` when `T` is a `std::map`: `return (_get() != _vr);`. -/
def opNeqMap (dget : Draws) (s : ObfState) (rhs : List (Nat × Nat)) :
    Option Bool × ObfState :=
  let r := CvarObfuscated.get mapCodec dget s
  (r.1.map fun m => decide (¬ m = rhs), r.2)

/-- The `operator==` when `T` is a `std::vector`: `return (_get() == _vr);`. -/
def opEqVec (dget : Draws) (s : ObfState) (rhs : List Nat) :
    Option Bool × ObfState :=
  let r := CvarObfuscated.get vecI64Codec dget s
  (r.1.map fun xs => decide (xs = rhs), r.2)

/-- The `operator!=` when `T` is a `std::vector`: `return (_get() != _vr);`. -/
def opNeqVec (dget : Draws) (s : ObfState) (rhs : List Nat) :
    Option Bool × ObfState :=
  let r := CvarObfuscated.get vecI64Codec dget s
  (r.1.map fun xs => decide (¬ xs = rhs), r.2)

/-- The `operator==` for every other `T`:
`T vl(_get()); return (memcmp(&vl, &_vr, sizeof(T)) == 0);` — byte-wise
comparison of the two object representations over `sizeof(T)` bytes.  For
the flat types handled by this branch the object representation is exactly
`c.enc`. -/
def opEqMemcmp {α : Type} (c : Codec α) (dget : Draws) (s : ObfState) (rhs : α) :
    Option Bool × ObfState :=
  let r := CvarObfuscated.get c dget s
  (r.1.map fun vl => decide (c.enc vl = c.enc rhs), r.2)

/-- The `operator!=` for every other `T`:
`return (memcmp(&vl, &_vr, sizeof(T)) != 0);`. -/
def opNeqMemcmp {α : Type} (c : Codec α) (dget : Draws) (s : ObfState) (rhs : α) :
    Option Bool × ObfState :=
  let r := CvarObfuscated.get c dget s
  (r.1.map fun vl => decide (¬ c.enc vl = c.enc rhs), r.2)

end CvarObfuscated

/-- A concrete draw record with every `rand()` result 0. -/
def d0 : Draws :=
  { rKeyOff := 0, rKeySize := 0, rKeyPad := 0, rKeyRead := 0, rKeyHop := 0
    keyNoise := fun _ => 0
    rValOff := 0, rValPad := 0, rValHop := 0
    valNoise := fun _ => 0
    mKeyOff := 0, mKeySize := 0, mKeyHop := 0, mKeyRead := 0
    mValOff := 0, mValSize := 0, mValHop := 0 }

/-- A concrete draw record whose noise streams constantly yield `0xAB`:
any byte actually written by a noise-padding loop is 171. -/
def dNoise : Draws :=
  { d0 with valNoise := fun _ => 171, keyNoise := fun _ => 171 }

/-! ## Component lemmas -/

/-- The `CvarMasked` round-trip: `get` after `set v` returns `v`
(the mask cancels: `(v ^ m) ^ m = v`). -/
@[simp] theorem CvarMasked.get_set (lim r v : Nat) :
    (CvarMasked.set lim r v).get = v := by
  simp [CvarMasked.set, CvarMasked.get, Nat.xor_cancel_right]

@[simp] theorem bytesLE_length (w v : Nat) : (bytesLE w v).length = w := by
  induction w generalizing v with
  | zero => simp [bytesLE]
  | succ n ih => simp [bytesLE, ih]

/-- Little-endian scalar round-trip: rebuilding from the `w`-byte
representation recovers the value modulo `2^(8w)`. -/
theorem fromBytesLE_bytesLE (w v : Nat) :
    fromBytesLE (bytesLE w v) = v % 256 ^ w := by
  induction w generalizing v with
  | zero => simp [bytesLE, fromBytesLE, Nat.mod_one]
  | succ n ih =>
      have h256 : (256 : Nat) ^ (n + 1) = 256 * 256 ^ n := by ring
      simp only [bytesLE, fromBytesLE, ih, h256]
      rw [Nat.mod_mul]

@[simp] theorem obfuscateFrom_length (key : List Nat) (koff ksize kread : Nat) :
    ∀ (i : Nat) (l : List Nat), (obfuscateFrom key koff ksize kread i l).length = l.length := by
  intro i l
  induction l generalizing i with
  | nil => simp [obfuscateFrom]
  | cons b rest ih => simp [obfuscateFrom, ih]

@[simp] theorem noisePaddingFrom_length (beg eng : Nat) (noise : Nat → Nat) :
    ∀ (i : Nat) (l : List Nat), (noisePaddingFrom beg eng noise i l).length = l.length := by
  intro i l
  induction l generalizing i with
  | nil => simp [noisePaddingFrom]
  | cons b rest ih => simp [noisePaddingFrom, ih]

/-- The read-side XOR pass undoes the write-side XOR pass: both sides read
the same key byte for index `i` (`(i + r) % n` vs `(r + i) % n`), and XOR
with the same byte twice is the identity. -/
theorem deobfuscateFrom_obfuscateFrom (key : List Nat) (koff ksize kread : Nat) :
    ∀ (i : Nat) (l : List Nat),
      deobfuscateFrom key koff ksize kread i (obfuscateFrom key koff ksize kread i l) = l := by
  intro i l
  induction l generalizing i with
  | nil => simp [obfuscateFrom, deobfuscateFrom]
  | cons b rest ih =>
      simp only [obfuscateFrom, deobfuscateFrom, ih]
      rw [Nat.add_comm kread i, Nat.xor_cancel_right]

/-- A `_copyVal_noisePadding` run whose start index is already at or past
the end bound writes nothing. -/
theorem noisePaddingFrom_nop (beg eng : Nat) (noise : Nat → Nat) :
    ∀ (i : Nat) (l : List Nat), eng ≤ i → noisePaddingFrom beg eng noise i l = l := by
  intro i l
  induction l generalizing i with
  | nil => intro _; simp [noisePaddingFrom]
  | cons b rest ih =>
      intro h
      have hcond : ¬ (beg ≤ i ∧ i < eng) := by omega
      simp [noisePaddingFrom, hcond, ih (i + 1) (by omega)]

theorem noisePaddingFrom_take (beg eng : Nat) (noise : Nat → Nat) :
    ∀ (l : List Nat) (i n : Nat),
      (noisePaddingFrom beg eng noise i l).take n = noisePaddingFrom beg eng noise i (l.take n) := by
  intro l
  induction l with
  | nil => intro i n; simp [noisePaddingFrom]
  | cons b rest ih =>
      intro i n
      cases n with
      | zero => simp [noisePaddingFrom]
      | succ m => simp [noisePaddingFrom, List.take_succ_cons, ih]

theorem noisePaddingFrom_drop (beg eng : Nat) (noise : Nat → Nat) :
    ∀ (l : List Nat) (i n : Nat),
      (noisePaddingFrom beg eng noise i l).drop n = noisePaddingFrom beg eng noise (i + n) (l.drop n) := by
  intro l
  induction l with
  | nil => intro i n; simp [noisePaddingFrom]
  | cons b rest ih =>
      intro i n
      cases n with
      | zero => simp [noisePaddingFrom]
      | succ m =>
          simp only [noisePaddingFrom, List.drop_succ_cons, ih]
          have : i + 1 + m = i + (m + 1) := by omega
          rw [this]

/-- A noise-padding run that covers its whole (zeroed) input replaces it by
the noise bytes. -/
theorem noisePaddingFrom_full (eng : Nat) (noise : Nat → Nat) :
    ∀ (m i : Nat), i + m ≤ eng →
      noisePaddingFrom 0 eng noise i (List.replicate m 0) =
        (List.range m).map (fun j => noise (i + j) % 256) := by
  intro m
  induction m with
  | zero => intro i _; simp [noisePaddingFrom]
  | succ n ih =>
      intro i h
      have hcond : 0 ≤ i ∧ i < eng := by omega
      simp only [List.replicate_succ, noisePaddingFrom, hcond, and_self, if_pos,
        List.range_succ_eq_map, List.map_cons, List.map_map]
      congr 1
      rw [ih (i + 1) (by omega)]
      apply List.map_congr_left
      intro a _
      simp only [Function.comp, Nat.succ_eq_add_one]
      have : i + 1 + a = i + (a + 1) := by omega
      rw [this]

/-- A `_copyVal_noisePadding` call whose begin bound is at or past its end
bound writes nothing, whatever the running index.  This is the situation of
the SECOND padding call in `_copyVal`, whose begin bound
`iValOffset + iValSize` (total allocation) always exceeds its end bound
`iSize` (value size). -/
theorem noisePaddingFrom_vacuous (beg eng : Nat) (noise : Nat → Nat) (h : eng ≤ beg) :
    ∀ (i : Nat) (l : List Nat), noisePaddingFrom beg eng noise i l = l := by
  intro i l
  induction l generalizing i with
  | nil => simp [noisePaddingFrom]
  | cons b rest ih =>
      have hcond : ¬ (beg ≤ i ∧ i < eng) := by omega
      simp [noisePaddingFrom, hcond, ih]

/-- Reading back the bytes just written by `memcpy(buf + off, src, len)`. -/
theorem writeBytes_window (off : Nat) (src buf : List Nat) (h : off ≤ buf.length) :
    ((writeBytes off src buf).drop off).take src.length = src := by
  have hlen : (buf.take off).length = off := by
    simp [List.length_take, Nat.min_eq_left h]
  have h1 : ((buf.take off ++ (src ++ buf.drop (off + src.length))).drop
      ((buf.take off).length)).take src.length = src := by
    rw [List.drop_left, List.take_left]
  rw [hlen] at h1
  unfold writeBytes
  rw [List.append_assoc]
  exact h1

/-- The `memcpy(buf + off, src, len)` leaves the bytes before `off` unchanged. -/
theorem writeBytes_take (off : Nat) (src buf : List Nat) (h : off ≤ buf.length) :
    (writeBytes off src buf).take off = buf.take off := by
  have hlen : (buf.take off).length = off := by
    simp [List.length_take, Nat.min_eq_left h]
  have h1 : (buf.take off ++ (src ++ buf.drop (off + src.length))).take
      ((buf.take off).length) = buf.take off := List.take_left _ _
  rw [hlen] at h1
  unfold writeBytes
  rw [List.append_assoc]
  exact h1

/-- The `memcpy(buf + off, src, len)` leaves the bytes past `off + len`
unchanged. -/
theorem writeBytes_drop_right (off : Nat) (src buf : List Nat) (h : off ≤ buf.length) :
    (writeBytes off src buf).drop (off + src.length) = buf.drop (off + src.length) := by
  have hlen : (buf.take off ++ src).length = off + src.length := by
    simp [List.length_take, Nat.min_eq_left h]
  have h1 : ((buf.take off ++ src) ++ buf.drop (off + src.length)).drop
      ((buf.take off ++ src).length) = buf.drop (off + src.length) := List.drop_left _ _
  rw [hlen] at h1
  unfold writeBytes
  exact h1

@[simp] theorem set_m_bEmpty {α : Type} (c : Codec α) (d : Draws) (s : ObfState) (v : α) :
    (CvarObfuscated.set c d s v).m_bEmpty = false := by
  simp [CvarObfuscated.set, copyVal, genKey]

/-- The `_get` on a non-empty container does not touch the state. -/
theorem get_nonempty {α : Type} (c : Codec α) (d : Draws) (s : ObfState)
    (h : s.m_bEmpty = false) :
    CvarObfuscated.get c d s = (CvarObfuscated.readCore c s, s) := by
  simp [CvarObfuscated.get, h]

/-- Workhorse: the read body recovers the value just stored by `_set`,
for any draws, whenever the serialised size fits the `uint8_t` read loop
(`size < 256`), the serialiser emits `size` bytes, and deserialisation
inverts serialisation on this value. -/
theorem readCore_set {α : Type} (c : Codec α) (v : α)
    (hdec : c.dec (c.enc v) = v) (hlen : (c.enc v).length = c.size v)
    (hsz : c.size v < 256) (d : Draws) (s : ObfState) :
    CvarObfuscated.readCore c (CvarObfuscated.set c d s v) = some v := by
  unfold CvarObfuscated.set copyVal genKey CvarObfuscated.readCore obfuscateVal
  simp only [CvarMasked.get_set]
  rw [noisePaddingFrom_vacuous _ _ _ (by omega)]
  have hseg : c.size v = (obfuscateFrom ((List.range (d.rKeySize % 32 + 32 + (d.rKeyOff % 24 + 8) + 8 + d.rKeyPad % 24)).map
        fun i => d.keyNoise i % 256) (d.rKeyOff % 24 + 8) (d.rKeySize % 32 + 32)
        (d.rKeyRead % (d.rKeySize % 32 + 32)) 0 (c.enc v)).length := by
    rw [obfuscateFrom_length, hlen]
  rw [if_pos hsz, hseg]
  rw [writeBytes_window _ _ _ (by
    simp only [noisePaddingFrom_length, List.length_replicate]
    omega)]
  rw [deobfuscateFrom_obfuscateFrom, hdec]

/-- The `_get` on a container just written by `_set` returns the stored value
and leaves the state alone (the container is no longer empty). -/
theorem read_after_set {α : Type} (c : Codec α) (v : α)
    (hdec : c.dec (c.enc v) = v) (hlen : (c.enc v).length = c.size v)
    (hsz : c.size v < 256) (d dget : Draws) (s : ObfState) :
    CvarObfuscated.get c dget (CvarObfuscated.set c d s v) =
      (some v, CvarObfuscated.set c d s v) := by
  rw [get_nonempty _ _ _ (set_m_bEmpty c d s v), readCore_set c v hdec hlen hsz d s]

/-- The `uint8_t` loop counter of `_get`'s XOR pass escapes the loop
condition `i < iValSize` iff the value size is below 256: the counter is
always `n % 256 ≤ 255`, so a bound of 256 or more is never failed, while a
bound `≤ 255` is failed after exactly `bound` increments. -/
theorem u8LoopExits_iff (bound : Nat) : u8LoopExits bound ↔ bound < 256 := by
  constructor
  · rintro ⟨n, hn⟩
    by_contra h
    push_neg at h
    exact hn (lt_of_lt_of_le (Nat.mod_lt n (by omega)) h)
  · intro h
    exact ⟨bound, by simp [u8LoopCounter, Nat.mod_eq_of_lt h]⟩

/-- The `int` scalar deserialisation inverts serialisation on 32-bit patterns. -/
theorem int32_dec_enc (v : Nat) (h : v < 2 ^ 32) :
    int32Codec.dec (int32Codec.enc v) = v := by
  show fromBytesLE (bytesLE 4 v) = v
  rw [fromBytesLE_bytesLE]
  have h4 : (256 : Nat) ^ 4 = 2 ^ 32 := by norm_num
  rw [h4]
  exact Nat.mod_eq_of_lt h

/-- The `std::vector<int64_t>` deserialisation inverts serialisation when every
element is a 64-bit pattern. -/
theorem decodeVec_encodeVec : ∀ (xs : List Nat), (∀ x ∈ xs, x < 2 ^ 64) →
    decodeVec ((xs.map (bytesLE 8)).flatten) = xs := by
  intro xs
  induction xs with
  | nil => intro _; simp [decodeVec]
  | cons x t ih =>
      intro h
      have hx : x < 2 ^ 64 := h x (by simp)
      simp only [List.map_cons, List.flatten_cons]
      have heq : bytesLE 8 x ++ (t.map (bytesLE 8)).flatten =
          x % 256 :: (bytesLE 7 (x / 256) ++ (t.map (bytesLE 8)).flatten) := rfl
      rw [heq, decodeVec]
      have htake : (bytesLE 7 (x / 256) ++ (t.map (bytesLE 8)).flatten).take 7 =
          bytesLE 7 (x / 256) := by
        have h7 := List.take_left (bytesLE 7 (x / 256)) ((t.map (bytesLE 8)).flatten)
        rwa [bytesLE_length] at h7
      have hdrop : (bytesLE 7 (x / 256) ++ (t.map (bytesLE 8)).flatten).drop 7 =
          (t.map (bytesLE 8)).flatten := by
        have h7 := List.drop_left (bytesLE 7 (x / 256)) ((t.map (bytesLE 8)).flatten)
        rwa [bytesLE_length] at h7
      rw [htake, hdrop, ih (fun y hy => h y (by simp [hy]))]
      have hc : (x % 256 :: bytesLE 7 (x / 256)) = bytesLE 8 x := rfl
      rw [hc, fromBytesLE_bytesLE]
      have h8 : (256 : Nat) ^ 8 = 2 ^ 64 := by norm_num
      rw [h8, Nat.mod_eq_of_lt hx]

/-- Membership after a `std::map` insertion. -/
theorem mapInsert_mem (k v : Nat) : ∀ (m : List (Nat × Nat)) (q : Nat × Nat),
    q ∈ mapInsert k v m → q = (k, v) ∨ q ∈ m := by
  intro m
  induction m with
  | nil =>
      intro q hq
      simp only [mapInsert, List.mem_singleton] at hq
      exact Or.inl hq
  | cons p rest ih =>
      intro q hq
      by_cases h1 : k < p.1
      · simp only [mapInsert, if_pos h1, List.mem_cons] at hq
        rcases hq with h | h | h
        · exact Or.inl h
        · exact Or.inr (by simp [h])
        · exact Or.inr (by simp [h])
      · by_cases h2 : k = p.1
        · simp only [mapInsert, if_neg h1, if_pos h2] at hq
          exact Or.inr hq
        · simp only [mapInsert, if_neg h1, if_neg h2, List.mem_cons] at hq
          rcases hq with h | h
          · exact Or.inr (by simp [h])
          · rcases ih q h with h' | h'
            · exact Or.inl h'
            · exact Or.inr (by simp [h'])

/-- The `std::map` insertion preserves strict key-sortedness. -/
theorem mapInsert_sorted (k v : Nat) : ∀ (m : List (Nat × Nat)),
    List.Pairwise (fun p q => p.1 < q.1) m →
    List.Pairwise (fun p q => p.1 < q.1) (mapInsert k v m) := by
  intro m
  induction m with
  | nil => intro _; simp [mapInsert]
  | cons p rest ih =>
      intro hp
      rcases List.pairwise_cons.mp hp with ⟨hhead, htail⟩
      by_cases h1 : k < p.1
      · simp only [mapInsert, if_pos h1]
        refine List.pairwise_cons.mpr ⟨?_, hp⟩
        intro q hq
        rcases List.mem_cons.mp hq with h | h
        · rw [h]; exact h1
        · exact lt_trans h1 (hhead q h)
      · by_cases h2 : k = p.1
        · simp only [mapInsert, if_neg h1, if_pos h2]
          exact hp
        · simp only [mapInsert, if_neg h1, if_neg h2]
          refine List.pairwise_cons.mpr ⟨?_, ih htail⟩
          intro q hq
          rcases mapInsert_mem k v rest q hq with h | h
          · rw [h]; show p.1 < k; omega
          · exact hhead q h

/-- Inserting a key larger than every present key appends at the end. -/
theorem mapInsert_big (k v : Nat) : ∀ (m : List (Nat × Nat)),
    (∀ p ∈ m, p.1 < k) → mapInsert k v m = m ++ [(k, v)] := by
  intro m
  induction m with
  | nil => intro _; simp [mapInsert]
  | cons p rest ih =>
      intro h
      have hp : p.1 < k := h p (by simp)
      have h1 : ¬ k < p.1 := by omega
      have h2 : ¬ k = p.1 := by omega
      simp only [mapInsert, if_neg h1, if_neg h2, List.cons_append]
      rw [ih (fun q hq => h q (by simp [hq]))]

/-- Inserting the entries of a sorted pair sequence in order (what `_return`
does for the map) rebuilds exactly that sequence. -/
theorem foldl_mapInsert_sorted : ∀ (m acc : List (Nat × Nat)),
    List.Pairwise (fun p q => p.1 < q.1) (acc ++ m) →
    m.foldl (fun a p => mapInsert p.1 p.2 a) acc = acc ++ m := by
  intro m
  induction m with
  | nil => intro acc _; simp
  | cons p rest ih =>
      intro acc hp
      have hbig : ∀ q ∈ acc, q.1 < p.1 := fun q hq =>
        (List.pairwise_append.mp hp).2.2 q hq p (by simp)
      simp only [List.foldl_cons]
      rw [mapInsert_big _ _ _ hbig]
      have hre : (acc ++ [p]) ++ rest = acc ++ p :: rest := by simp
      rw [ih (acc ++ [p]) (by rw [hre]; exact hp), hre]

/-- Rebuilding a sorted map from its own pair sequence is the identity. -/
theorem mapOfPairs_sorted (m : List (Nat × Nat))
    (h : List.Pairwise (fun p q => p.1 < q.1) m) : mapOfPairs m = m := by
  have h0 := foldl_mapInsert_sorted m [] (by simpa using h)
  simpa [mapOfPairs] using h0

/-- The pair stream written by `_castVal` for the map parses back to the
same pair sequence (keys one byte, values 64-bit patterns). -/
theorem parsePairs_encodeMap : ∀ (m : List (Nat × Nat)),
    (∀ p ∈ m, p.1 < 256 ∧ p.2 < 2 ^ 64) → parsePairs (encodeMap m) = m := by
  intro m
  induction m with
  | nil => intro _; simp [encodeMap, parsePairs]
  | cons p rest ih =>
      intro h
      obtain ⟨hk, hv⟩ := h p (by simp)
      have heq : encodeMap (p :: rest) =
          p.1 % 256 :: (bytesLE 8 p.2 ++ encodeMap rest) := by
        simp [encodeMap, encPair, bytesLE]
      rw [heq, parsePairs]
      have htake : (bytesLE 8 p.2 ++ encodeMap rest).take 8 = bytesLE 8 p.2 := by
        have h8 := List.take_left (bytesLE 8 p.2) (encodeMap rest)
        rwa [bytesLE_length] at h8
      have hdrop : (bytesLE 8 p.2 ++ encodeMap rest).drop 8 = encodeMap rest := by
        have h8 := List.drop_left (bytesLE 8 p.2) (encodeMap rest)
        rwa [bytesLE_length] at h8
      rw [htake, hdrop, ih (fun q hq => h q (by simp [hq]))]
      have h1 : p.1 % 256 = p.1 := Nat.mod_eq_of_lt hk
      have h2 : fromBytesLE (bytesLE 8 p.2) = p.2 := by
        rw [fromBytesLE_bytesLE]
        have h8 : (256 : Nat) ^ 8 = 2 ^ 64 := by norm_num
        rw [h8]
        exact Nat.mod_eq_of_lt hv
      rw [h1, h2]

/-- Map deserialisation inverts serialisation on canonical maps. -/
theorem decodeMap_encodeMap (m : List (Nat × Nat)) (h : MapCanon m) :
    decodeMap (encodeMap m) = m := by
  unfold decodeMap
  rw [parsePairs_encodeMap m h.2, mapOfPairs_sorted m h.1]

/-- Two `std::map` insertions with distinct keys commute. -/
theorem mapInsert_comm (k v k' v' : Nat) (hne : k ≠ k') : ∀ (m : List (Nat × Nat)),
    mapInsert k v (mapInsert k' v' m) = mapInsert k' v' (mapInsert k v m) := by
  intro m
  induction m with
  | nil =>
      by_cases h : k < k'
      · simp [mapInsert, h, show ¬ k' < k by omega, show ¬ k' = k by omega]
      · have h' : k' < k := by omega
        simp [mapInsert, h', hne, show ¬ k < k' by omega]
  | cons p rest ih =>
      rcases Nat.lt_trichotomy k p.1 with hk | hk | hk <;>
        rcases Nat.lt_trichotomy k' p.1 with hk' | hk' | hk'
      · -- k < p.1, k' < p.1
        by_cases hkk : k < k'
        · simp [mapInsert, hk, hk', hkk, show ¬ k' < k by omega, show ¬ k' = k by omega]
        · have h' : k' < k := by omega
          simp [mapInsert, hk, hk', h', hne, show ¬ k < k' by omega]
      · -- k < p.1, k' = p.1
        subst hk'
        simp [mapInsert, hk, show ¬ p.1 < k by omega, show ¬ p.1 = k by omega]
      · -- k < p.1 < k'
        simp [mapInsert, hk, show ¬ k' < p.1 by omega, show ¬ k' = p.1 by omega,
          show ¬ k' < k by omega, show ¬ k' = k by omega]
      · -- k = p.1, k' < p.1
        subst hk
        simp [mapInsert, hk', show ¬ p.1 < k' by omega, show ¬ p.1 = k' by omega]
      · -- k = p.1 = k': impossible
        exact absurd (hk.trans hk'.symm) hne
      · -- k = p.1 < k'
        subst hk
        simp [mapInsert, show ¬ k' < p.1 by omega, show ¬ k' = p.1 by omega]
      · -- k' < p.1 < k
        simp [mapInsert, hk', show ¬ k < p.1 by omega, show ¬ k = p.1 by omega,
          show ¬ k < k' by omega, show ¬ k = k' by omega]
      · -- k' = p.1 < k
        subst hk'
        simp [mapInsert, show ¬ k < p.1 by omega, show ¬ k = p.1 by omega]
      · -- p.1 < k, p.1 < k'
        simp [mapInsert, show ¬ k < p.1 by omega, show ¬ k = p.1 by omega,
          show ¬ k' < p.1 by omega, show ¬ k' = p.1 by omega, ih]

/-- Building a `std::map` by insertion is insensitive to the order in which
pairs with pairwise-distinct keys are presented. -/
theorem mapOfPairs_perm (l1 l2 : List (Nat × Nat)) (h : l1.Perm l2)
    (hnd : (l1.map Prod.fst).Nodup) : mapOfPairs l1 = mapOfPairs l2 := by
  unfold mapOfPairs
  refine h.foldl_eq' ?_ []
  intro x hx y hy z
  by_cases hxy : x = y
  · rw [hxy]
  · have hne : y.1 ≠ x.1 := by
      intro hfst
      exact hxy (List.inj_on_of_nodup_map hnd hx hy hfst.symm)
    exact mapInsert_comm y.1 y.2 x.1 x.2 hne z

/-- The walk of `_ptrUnfold` through memory as written by `_ptrFold` lands
exactly on the payload buffer start: by induction over the chain cells,
using that every stored distance is a difference of 8-byte-aligned
addresses, so the `/ 8` (truncating) followed by the `intptr_t*` pointer
arithmetic (times 8 bytes) reproduces it exactly. -/
theorem ptrUnfold_chain : ∀ (rest : List Int) (a pay : Int) (mem : Int → Int),
    (a :: rest).Nodup → (∀ c ∈ a :: rest, (8 : Int) ∣ c) → (8 : Int) ∣ pay →
    (∀ c ∈ a :: rest, mem c = chainMem (a :: rest) pay c) →
    ptrUnfold mem (a :: rest).length a = pay := by
  intro rest
  induction rest with
  | nil =>
      intro a pay mem _ hal hpay hmem
      have hma : mem a = a - pay := by
        rw [hmem a (by simp)]
        simp [chainMem, chainStore]
      show ptrUnfold mem 1 a = pay
      simp only [ptrUnfold, ptrUnfold_Walker, hma]
      have hdvd : (8 : Int) ∣ (a - pay) := Int.dvd_sub (hal a (by simp)) hpay
      rw [Int.mul_tdiv_cancel' hdvd]
      omega
  | cons b rest' ih =>
      intro a pay mem hnd hal hpay hmem
      have hma : mem a = a - b := by
        rw [hmem a (by simp)]
        simp [chainMem, chainStore]
      have hstep : ptrUnfold_Walker mem a = b := by
        simp only [ptrUnfold_Walker, hma]
        have hdvd : (8 : Int) ∣ (a - b) :=
          Int.dvd_sub (hal a (by simp)) (hal b (by simp))
        rw [Int.mul_tdiv_cancel' hdvd]
        omega
      have hanot : a ∉ b :: rest' := (List.nodup_cons.mp hnd).1
      show ptrUnfold mem ((b :: rest').length + 1) a = pay
      rw [show ptrUnfold mem ((b :: rest').length + 1) a =
        ptrUnfold mem (b :: rest').length (ptrUnfold_Walker mem a) from rfl, hstep]
      apply ih b pay mem (List.nodup_cons.mp hnd).2
        (fun c hc => hal c (by simp [hc])) hpay
      intro c hc
      rw [hmem c (by simp [hc])]
      have hcne : c ≠ a := fun hcc => hanot (hcc ▸ hc)
      have hca : ¬ (((a, a - b).1 == c) = true) := by
        simp only [beq_iff_eq]
        exact fun hcc => hcne hcc.symm
      have hfind : List.find? (fun q => q.1 == c) ((a, a - b) :: chainStore (b :: rest') pay)
          = List.find? (fun q => q.1 == c) (chainStore (b :: rest') pay) :=
        List.find?_cons_of_neg _ hca
      simp only [chainMem, chainStore, hfind]

/-! ## Projections of the state after `_set` -/

@[simp] theorem set_keySizeM {α : Type} (c : Codec α) (d : Draws) (s : ObfState) (v : α) :
    (CvarObfuscated.set c d s v).keySizeM.get = d.rKeySize % 32 + 32 := by
  simp [CvarObfuscated.set, copyVal, genKey]

@[simp] theorem set_keyOffsetM {α : Type} (c : Codec α) (d : Draws) (s : ObfState) (v : α) :
    (CvarObfuscated.set c d s v).keyOffsetM.get = d.rKeyOff % 24 + 8 := by
  simp [CvarObfuscated.set, copyVal, genKey]

@[simp] theorem set_keyHopM {α : Type} (c : Codec α) (d : Draws) (s : ObfState) (v : α) :
    (CvarObfuscated.set c d s v).keyHopM.get = d.rKeyHop % 7 + 1 := by
  simp [CvarObfuscated.set, copyVal, genKey]

@[simp] theorem set_keyReadM {α : Type} (c : Codec α) (d : Draws) (s : ObfState) (v : α) :
    (CvarObfuscated.set c d s v).keyReadM.get = d.rKeyRead % (d.rKeySize % 32 + 32) := by
  simp [CvarObfuscated.set, copyVal, genKey]

@[simp] theorem set_valSizeM {α : Type} (c : Codec α) (d : Draws) (s : ObfState) (v : α) :
    (CvarObfuscated.set c d s v).valSizeM.get = c.size v := by
  simp [CvarObfuscated.set, copyVal]

@[simp] theorem set_valOffsetM {α : Type} (c : Codec α) (d : Draws) (s : ObfState) (v : α) :
    (CvarObfuscated.set c d s v).valOffsetM.get = d.rValOff % 24 + 8 := by
  simp [CvarObfuscated.set, copyVal]

@[simp] theorem set_valHopM {α : Type} (c : Codec α) (d : Draws) (s : ObfState) (v : α) :
    (CvarObfuscated.set c d s v).valHopM.get = d.rValHop % 7 + 1 := by
  simp [CvarObfuscated.set, copyVal]

@[simp] theorem set_keyBuff_length {α : Type} (c : Codec α) (d : Draws) (s : ObfState) (v : α) :
    (CvarObfuscated.set c d s v).keyBuff.length =
      (d.rKeySize % 32 + 32) + (d.rKeyOff % 24 + 8) + 8 + d.rKeyPad % 24 := by
  simp [CvarObfuscated.set, copyVal, genKey]

theorem set_valBuff_length {α : Type} (c : Codec α) (v : α)
    (hlen : (c.enc v).length = c.size v) (d : Draws) (s : ObfState) :
    (CvarObfuscated.set c d s v).valBuff.length =
      c.size v + (d.rValOff % 24 + 8) + 8 + d.rValPad % 24 := by
  simp [CvarObfuscated.set, copyVal, writeBytes, obfuscateVal, hlen,
    List.length_take, List.length_drop]
  omega

theorem encodeMap_length : ∀ (m : List (Nat × Nat)), (encodeMap m).length = m.length * 9 := by
  intro m
  induction m with
  | nil => simp [encodeMap]
  | cons p rest ih =>
      have h : encodeMap (p :: rest) = encPair p ++ encodeMap rest := by
        simp [encodeMap]
      rw [h]
      simp only [List.length_append, ih, encPair, bytesLE_length, List.length_cons]
      omega

theorem encodeVec_length : ∀ (xs : List Nat), ((xs.map (bytesLE 8)).flatten).length = xs.length * 8 := by
  intro xs
  induction xs with
  | nil => simp
  | cons x t ih =>
      simp only [List.map_cons, List.flatten_cons, List.length_append, ih,
        bytesLE_length, List.length_cons]
      omega

/-! ## Claims -/

/-- Claim C1 — claimed: for every supported type and every representable value,
`get(set(v))` returns `v` regardless of the random metadata.  This FAILS on
the code: `_get`'s XOR loop counts with a `uint8_t` against the `int` value
size, so for a value whose byte size is 256 or more (here a
`std::vector<int64_t>` of 32 elements, 256 bytes) the loop counter wraps and
the read never completes — `get` yields no value at all instead of `v`. -/
theorem C1_roundtrip_fails_at_256_bytes :
    (CvarObfuscated.get vecI64Codec d0
      (CvarObfuscated.set vecI64Codec d0 initState (List.replicate 32 0))).1 = none := by
  rw [get_nonempty _ _ _ (set_m_bEmpty _ _ _ _)]
  simp [CvarObfuscated.readCore, vecI64Codec]

/-- Claim C2 — claimed: every `get` runs its per-byte deobfuscation pass to
completion for every stored size.  This FAILS on the code: the pass's
`uint8_t` counter never fails the loop condition `i < 256` (it is always
`≤ 255`), so for a 256-byte value the loop never exits; it does exit for
every size up to 255. -/
theorem C2_deobfuscation_loop_never_exits_at_256 :
    ¬ u8LoopExits 256 ∧ u8LoopExits 255 := by
  constructor
  · intro h
    have h256 := (u8LoopExits_iff 256).mp h
    omega
  · exact (u8LoopExits_iff 255).mpr (by omega)

/-- Claim C3 — reading a never-assigned container either raises a failure
(first variant of the header: `throw`) or auto-initialises the container to
`T()` and returns exactly that default (second variant: `_set(T())` before
the read); no uninitialised read returns garbage. -/
theorem C3_uninitialized_read {α : Type} (c : Codec α)
    (hdec : c.dec (c.enc c.dflt) = c.dflt)
    (hlen : (c.enc c.dflt).length = c.size c.dflt)
    (hsz : c.size c.dflt < 256) (d : Draws) (s0 : ObfState)
    (he : s0.m_bEmpty = true) :
    CvarObfuscated.readFirstVariant c s0 =
      Except.error "The obfuscated variable has not yet been initialized." ∧
    (CvarObfuscated.get c d s0).1 = some c.dflt ∧
    ((CvarObfuscated.get c d s0).2).m_bEmpty = false := by
  refine ⟨?_, ?_, ?_⟩
  · simp [CvarObfuscated.readFirstVariant, he]
  · simp only [CvarObfuscated.get, he, if_true]
    exact readCore_set c c.dflt hdec hlen hsz d s0
  · simp only [CvarObfuscated.get, he, if_true]
    exact set_m_bEmpty c d s0 c.dflt

/-- Witness for C3 at `CvarObfuscated<int>`: the default is 0. -/
theorem C3_uninitialized_read_witness :
    CvarObfuscated.readFirstVariant int32Codec initState =
      Except.error "The obfuscated variable has not yet been initialized." ∧
    (CvarObfuscated.get int32Codec d0 initState).1 = some int32Codec.dflt ∧
    ((CvarObfuscated.get int32Codec d0 initState).2).m_bEmpty = false :=
  C3_uninitialized_read int32Codec rfl rfl (by norm_num [int32Codec]) d0 initState rfl

/-- The `memcpy` of a 4-byte source leaves the bytes past `off + 4` unchanged. -/
theorem writeBytes_drop_right4 (off : Nat) (src buf : List Nat)
    (h4 : src.length = 4) (h : off ≤ buf.length) :
    (writeBytes off src buf).drop (off + 4) = buf.drop (off + 4) := by
  have hh := writeBytes_drop_right off src buf h
  rwa [h4] at hh

/-- Claim C4 — claimed: after every `set` the payload buffer is
`[random noise][ciphered value][random noise]`.  The leading region IS
noise-filled, but the trailing region is NOT: the second
`_copyVal_noisePadding` call runs from `iValOffset + iValSize` (total
allocation) up to `iSize` (value size), an empty range, so the bytes after
the ciphered value keep their `memset` value 0 for EVERY random draw —
shown here for `CvarObfuscated<int>` (4-byte value). -/
theorem C4_trailing_region_stays_zero (d : Draws) (s : ObfState) (x : Nat) :
    (CvarObfuscated.set int32Codec d s x).valBuff.take (d.rValOff % 24 + 8) =
      (List.range (d.rValOff % 24 + 8)).map (fun j => d.valNoise j % 256) ∧
    (CvarObfuscated.set int32Codec d s x).valBuff.drop ((d.rValOff % 24 + 8) + 4) =
      List.replicate (8 + d.rValPad % 24) 0 := by
  have hseg : ∀ (sKey : ObfState), (obfuscateVal sKey (int32Codec.enc x)).length = 4 := by
    intro sKey
    simp [obfuscateVal, int32Codec]
  unfold CvarObfuscated.set copyVal
  simp only [set_m_bEmpty]
  rw [noisePaddingFrom_vacuous _ _ _ (by omega)]
  constructor
  · rw [writeBytes_take _ _ _ (by simp; omega)]
    rw [noisePaddingFrom_take]
    rw [List.take_replicate]
    rw [Nat.min_eq_left (by omega)]
    rw [noisePaddingFrom_full _ _ _ _ (by omega)]
    apply List.map_congr_left
    intro a _
    simp
  · rw [writeBytes_drop_right4 _ _ _ (hseg _) (by simp; omega)]
    rw [noisePaddingFrom_drop]
    rw [noisePaddingFrom_nop _ _ _ _ _ (by omega)]
    rw [List.drop_replicate]
    congr 1
    simp only [int32Codec]
    omega

/-- Claim C5 — for every hop count in 1..7, walking a chain built by
`_ptrFold` with `_ptrUnfold` at the same hop count resolves back to exactly
the payload buffer start.  Each walk step computes
`current - 8 * ((stored distance) / 8)` (the `/ 8` truncates toward zero,
the factor 8 is the `intptr_t*` pointer arithmetic); on the chain's own
memory this equals `current - stored distance` because every allocation
address is 8-byte aligned. -/
theorem C5_unfold_resolves_fold (hop : Nat) (h1 : 1 ≤ hop) (h7 : hop ≤ 7)
    (a pay : Int) (rest : List Int) (hlen : rest.length + 1 = hop)
    (hnd : (a :: rest).Nodup) (hal : ∀ c ∈ a :: rest, (8 : Int) ∣ c)
    (hpay : (8 : Int) ∣ pay) :
    ptrUnfold (chainMem (a :: rest) pay) hop a = pay := by
  subst hlen
  exact ptrUnfold_chain rest a pay _ hnd hal hpay (fun c _ => rfl)

/-- Witness for C5: a two-hop chain with cells at 16 and 8 and the payload
at 32 resolves to 32. -/
theorem C5_unfold_resolves_fold_witness :
    ptrUnfold (chainMem [16, 8] 32) 2 16 = 32 :=
  C5_unfold_resolves_fold 2 (by decide) (by decide) 16 32 [8] rfl (by decide)
    (by decide) (by decide)

/-- Claim C6 — on every `set` the freshly sampled layout metadata satisfies:
key size in [32,63], leading-noise offset in [8,31] for both buffers, both
hop counts in [1,7], and the extra trailing padding of each buffer is
`8 + rand % 24 ≤ 8 + 23` bytes; the stored value size equals the value's
byte size (hence `size ≥ 0`, trivially in `Nat`) and both offsets are at
least 8 in every state produced by `set`. -/
theorem C6_layout_metadata_ranges {α : Type} (c : Codec α) (v : α)
    (hlen : (c.enc v).length = c.size v) (d : Draws) (s : ObfState)
    (st : ObfState) (hst : st = CvarObfuscated.set c d s v) :
    (32 ≤ st.keySizeM.get ∧ st.keySizeM.get ≤ 63) ∧
    (8 ≤ st.keyOffsetM.get ∧ st.keyOffsetM.get ≤ 31) ∧
    (8 ≤ st.valOffsetM.get ∧ st.valOffsetM.get ≤ 31) ∧
    (1 ≤ st.keyHopM.get ∧ st.keyHopM.get ≤ 7) ∧
    (1 ≤ st.valHopM.get ∧ st.valHopM.get ≤ 7) ∧
    st.keyBuff.length = st.keySizeM.get + st.keyOffsetM.get + (8 + d.rKeyPad % 24) ∧
    st.valBuff.length = st.valSizeM.get + st.valOffsetM.get + (8 + d.rValPad % 24) ∧
    8 + d.rKeyPad % 24 ≤ 8 + 23 ∧ 8 + d.rValPad % 24 ≤ 8 + 23 ∧
    st.valSizeM.get = c.size v := by
  subst hst
  rw [set_keySizeM, set_keyOffsetM, set_valOffsetM, set_keyHopM, set_valHopM,
    set_valSizeM, set_keyBuff_length, set_valBuff_length c v hlen]
  have hk32 := Nat.mod_lt d.rKeySize (show 0 < 32 by omega)
  have hk24 := Nat.mod_lt d.rKeyOff (show 0 < 24 by omega)
  have hv24 := Nat.mod_lt d.rValOff (show 0 < 24 by omega)
  have hk7 := Nat.mod_lt d.rKeyHop (show 0 < 7 by omega)
  have hv7 := Nat.mod_lt d.rValHop (show 0 < 7 by omega)
  have hkp := Nat.mod_lt d.rKeyPad (show 0 < 24 by omega)
  have hvp := Nat.mod_lt d.rValPad (show 0 < 24 by omega)
  omega

/-- Witness for C6 at `CvarObfuscated<int>` with all-zero draws. -/
theorem C6_layout_metadata_ranges_witness :
    (32 ≤ (CvarObfuscated.set int32Codec d0 initState 496).keySizeM.get ∧
      (CvarObfuscated.set int32Codec d0 initState 496).keySizeM.get ≤ 63) ∧
    (8 ≤ (CvarObfuscated.set int32Codec d0 initState 496).keyOffsetM.get ∧
      (CvarObfuscated.set int32Codec d0 initState 496).keyOffsetM.get ≤ 31) ∧
    (8 ≤ (CvarObfuscated.set int32Codec d0 initState 496).valOffsetM.get ∧
      (CvarObfuscated.set int32Codec d0 initState 496).valOffsetM.get ≤ 31) ∧
    (1 ≤ (CvarObfuscated.set int32Codec d0 initState 496).keyHopM.get ∧
      (CvarObfuscated.set int32Codec d0 initState 496).keyHopM.get ≤ 7) ∧
    (1 ≤ (CvarObfuscated.set int32Codec d0 initState 496).valHopM.get ∧
      (CvarObfuscated.set int32Codec d0 initState 496).valHopM.get ≤ 7) ∧
    (CvarObfuscated.set int32Codec d0 initState 496).keyBuff.length =
      (CvarObfuscated.set int32Codec d0 initState 496).keySizeM.get +
      (CvarObfuscated.set int32Codec d0 initState 496).keyOffsetM.get + (8 + d0.rKeyPad % 24) ∧
    (CvarObfuscated.set int32Codec d0 initState 496).valBuff.length =
      (CvarObfuscated.set int32Codec d0 initState 496).valSizeM.get +
      (CvarObfuscated.set int32Codec d0 initState 496).valOffsetM.get + (8 + d0.rValPad % 24) ∧
    8 + d0.rKeyPad % 24 ≤ 8 + 23 ∧ 8 + d0.rValPad % 24 ≤ 8 + 23 ∧
    (CvarObfuscated.set int32Codec d0 initState 496).valSizeM.get = int32Codec.size 496 :=
  C6_layout_metadata_ranges int32Codec 496 rfl d0 initState _ rfl

/-- Claim C7 — compound operators on an integer container: after storing `x`,
running the common compound body (`val = f(_get(), k); _set(val); return
val`, with `f` the value type's native operation for `+= -= *= /= &= |= ^=`
and, with `k = 1`, for `++`/`--`) returns `f x k` and a subsequent `get`
observes exactly `f x k`, for every random draw. -/
theorem C7_compound_operator (f : Nat → Nat → Nat) (x k : Nat)
    (hx : x < 2 ^ 32) (hfk : f x k < 2 ^ 32) (ds d1 d2 d3 : Draws) (s0 : ObfState) :
    (CvarObfuscated.opCompound int32Codec f d1 d2
        (CvarObfuscated.set int32Codec ds s0 x) k).1 = some (f x k) ∧
    (CvarObfuscated.get int32Codec d3
        (CvarObfuscated.opCompound int32Codec f d1 d2
          (CvarObfuscated.set int32Codec ds s0 x) k).2).1 = some (f x k) := by
  have hget := read_after_set int32Codec x (int32_dec_enc x hx)
    (by simp [int32Codec]) (by norm_num [int32Codec]) ds d1 s0
  have hop : CvarObfuscated.opCompound int32Codec f d1 d2
      (CvarObfuscated.set int32Codec ds s0 x) k =
      (some (f x k), CvarObfuscated.set int32Codec d2
        (CvarObfuscated.set int32Codec ds s0 x) (f x k)) := by
    simp [CvarObfuscated.opCompound, hget]
  rw [hop]
  refine ⟨rfl, ?_⟩
  rw [get_nonempty _ _ _ (set_m_bEmpty _ _ _ _)]
  exact readCore_set int32Codec (f x k) (int32_dec_enc _ hfk)
    (by simp [int32Codec]) (by norm_num [int32Codec]) d2 _

/-- Witness for C7: the concrete scenario `c = 496; c += 4` yields 500 both
as the operator's return value and on the next read. -/
theorem C7_compound_operator_witness :
    (CvarObfuscated.opCompound int32Codec int32add d0 d0
        (CvarObfuscated.set int32Codec d0 initState 496) 4).1 = some (int32add 496 4) ∧
    (CvarObfuscated.get int32Codec d0
        (CvarObfuscated.opCompound int32Codec int32add d0 d0
          (CvarObfuscated.set int32Codec d0 initState 496) 4).2).1 = some (int32add 496 4) :=
  C7_compound_operator int32add 496 4 (by decide) (by decide) d0 d0 d0 d0 initState

/-- Claim C8 — non-compound operators never write back: after storing `x`,
the common non-compound body (`return f(_get(), k);`, with `f` the native
operation for `+ - * / % & | ^ << >>`) returns `f x k`, leaves the state
exactly as it was, and a subsequent `get` still observes `x`. -/
theorem C8_noncompound_operator_pure (f : Nat → Nat → Nat) (x k : Nat)
    (hx : x < 2 ^ 32) (ds d1 d2 : Draws) (s0 : ObfState) :
    (CvarObfuscated.opArith int32Codec f d1
        (CvarObfuscated.set int32Codec ds s0 x) k).1 = some (f x k) ∧
    (CvarObfuscated.opArith int32Codec f d1
        (CvarObfuscated.set int32Codec ds s0 x) k).2 =
      CvarObfuscated.set int32Codec ds s0 x ∧
    (CvarObfuscated.get int32Codec d2
        (CvarObfuscated.set int32Codec ds s0 x)).1 = some x := by
  have hget := read_after_set int32Codec x (int32_dec_enc x hx)
    (by simp [int32Codec]) (by norm_num [int32Codec]) ds d1 s0
  have hget2 := read_after_set int32Codec x (int32_dec_enc x hx)
    (by simp [int32Codec]) (by norm_num [int32Codec]) ds d2 s0
  refine ⟨?_, ?_, ?_⟩
  · simp [CvarObfuscated.opArith, hget]
  · simp [CvarObfuscated.opArith, hget]
  · rw [hget2]

/-- Witness for C8: `c = 16; r = c + 4` yields `r = 20` while `get(c)` is
still 16 and the state is untouched. -/
theorem C8_noncompound_operator_pure_witness :
    (CvarObfuscated.opArith int32Codec int32add d0
        (CvarObfuscated.set int32Codec d0 initState 16) 4).1 = some (int32add 16 4) ∧
    (CvarObfuscated.opArith int32Codec int32add d0
        (CvarObfuscated.set int32Codec d0 initState 16) 4).2 =
      CvarObfuscated.set int32Codec d0 initState 16 ∧
    (CvarObfuscated.get int32Codec d0
        (CvarObfuscated.set int32Codec d0 initState 16)).1 = some 16 :=
  C8_noncompound_operator_pure int32add 16 4 (by decide) d0 d0 d0 initState

/-- Claim C10 — the postfix `++`/`--` operators have bodies identical to the
prefix forms: both write the new value back and RETURN the new
(incremented/decremented) value, not the value held before the operation as
native C++ postfix semantics would. -/
theorem C10_postfix_returns_new_value (x : Nat) (hx : x < 2 ^ 32)
    (ds d1 d2 d3 d4 : Draws) (s0 : ObfState) :
    (CvarObfuscated.opIncPost d1 d2 (CvarObfuscated.set int32Codec ds s0 x)).1 =
      some (int32add x 1) ∧
    (CvarObfuscated.opIncPost d1 d2 (CvarObfuscated.set int32Codec ds s0 x)).1 =
      (CvarObfuscated.opIncPre d1 d2 (CvarObfuscated.set int32Codec ds s0 x)).1 ∧
    (CvarObfuscated.get int32Codec d3
        (CvarObfuscated.opIncPost d1 d2 (CvarObfuscated.set int32Codec ds s0 x)).2).1 =
      some (int32add x 1) ∧
    (CvarObfuscated.opDecPost d1 d2 (CvarObfuscated.set int32Codec ds s0 x)).1 =
      some (int32sub x 1) ∧
    (CvarObfuscated.opDecPost d1 d2 (CvarObfuscated.set int32Codec ds s0 x)).1 =
      (CvarObfuscated.opDecPre d1 d2 (CvarObfuscated.set int32Codec ds s0 x)).1 ∧
    (CvarObfuscated.get int32Codec d4
        (CvarObfuscated.opDecPost d1 d2 (CvarObfuscated.set int32Codec ds s0 x)).2).1 =
      some (int32sub x 1) := by
  have hget := read_after_set int32Codec x (int32_dec_enc x hx)
    (by simp [int32Codec]) (by norm_num [int32Codec]) ds d1 s0
  have hinc : CvarObfuscated.opIncPost d1 d2 (CvarObfuscated.set int32Codec ds s0 x) =
      (some (int32add x 1), CvarObfuscated.set int32Codec d2
        (CvarObfuscated.set int32Codec ds s0 x) (int32add x 1)) := by
    simp [CvarObfuscated.opIncPost, hget]
  have hdec : CvarObfuscated.opDecPost d1 d2 (CvarObfuscated.set int32Codec ds s0 x) =
      (some (int32sub x 1), CvarObfuscated.set int32Codec d2
        (CvarObfuscated.set int32Codec ds s0 x) (int32sub x 1)) := by
    simp [CvarObfuscated.opDecPost, hget]
  have haddlt : int32add x 1 < 2 ^ 32 := Nat.mod_lt _ (by norm_num)
  have hsublt : int32sub x 1 < 2 ^ 32 := Nat.mod_lt _ (by norm_num)
  refine ⟨by rw [hinc], ?_, ?_, by rw [hdec], ?_, ?_⟩
  · rw [hinc]
    simp [CvarObfuscated.opIncPre, hget]
  · rw [hinc]
    rw [get_nonempty _ _ _ (set_m_bEmpty _ _ _ _)]
    exact readCore_set int32Codec (int32add x 1) (int32_dec_enc _ haddlt)
      (by simp [int32Codec]) (by norm_num [int32Codec]) d2 _
  · rw [hdec]
    simp [CvarObfuscated.opDecPre, hget]
  · rw [hdec]
    rw [get_nonempty _ _ _ (set_m_bEmpty _ _ _ _)]
    exact readCore_set int32Codec (int32sub x 1) (int32_dec_enc _ hsublt)
      (by simp [int32Codec]) (by norm_num [int32Codec]) d2 _

/-- Witness for C10 at `x = 5`: postfix `++` returns 6 (the new value). -/
theorem C10_postfix_returns_new_value_witness :
    (CvarObfuscated.opIncPost d0 d0 (CvarObfuscated.set int32Codec d0 initState 5)).1 =
      some (int32add 5 1) ∧
    (CvarObfuscated.opIncPost d0 d0 (CvarObfuscated.set int32Codec d0 initState 5)).1 =
      (CvarObfuscated.opIncPre d0 d0 (CvarObfuscated.set int32Codec d0 initState 5)).1 ∧
    (CvarObfuscated.get int32Codec d0
        (CvarObfuscated.opIncPost d0 d0 (CvarObfuscated.set int32Codec d0 initState 5)).2).1 =
      some (int32add 5 1) ∧
    (CvarObfuscated.opDecPost d0 d0 (CvarObfuscated.set int32Codec d0 initState 5)).1 =
      some (int32sub 5 1) ∧
    (CvarObfuscated.opDecPost d0 d0 (CvarObfuscated.set int32Codec d0 initState 5)).1 =
      (CvarObfuscated.opDecPre d0 d0 (CvarObfuscated.set int32Codec d0 initState 5)).1 ∧
    (CvarObfuscated.get int32Codec d0
        (CvarObfuscated.opDecPost d0 d0 (CvarObfuscated.set int32Codec d0 initState 5)).2).1 =
      some (int32sub 5 1) :=
  C10_postfix_returns_new_value 5 (by decide) d0 d0 d0 d0 d0 initState

/-- Claim C9 — the equality operators resolve the stored value and compare it
to the right-hand operand: element-wise (natural equality) when `T` is a
`std::vector` or `std::map` — and maps built by inserting the same
key/value pairs in any order are the same map, so map comparison is
insensitive to the order the pairs were presented in — and by byte-wise
`memcmp` over `sizeof(T)` bytes for every other type, so two values whose
object representations differ in any byte (here a padded aggregate)
compare unequal even when they are semantically equal. -/
theorem C9_equality_semantics
    (m rhsM l1 l2 : List (Nat × Nat)) (xs rhsV ag rhsA : List Nat)
    (hcanon : MapCanon m) (hm9 : m.length ≤ 28)
    (hperm : l1.Perm l2) (hnd : (l1.map Prod.fst).Nodup)
    (hxs : ∀ y ∈ xs, y < 2 ^ 64) (hxl : xs.length ≤ 31)
    (hag : ag.length = 4)
    (dm dv da dg1 dg2 dg3 : Draws) (s0 : ObfState) :
    (CvarObfuscated.opEqMap dg1 (CvarObfuscated.set mapCodec dm s0 m) rhsM).1 =
      some (decide (m = rhsM)) ∧
    (CvarObfuscated.opNeqMap dg1 (CvarObfuscated.set mapCodec dm s0 m) rhsM).1 =
      some (decide (¬ m = rhsM)) ∧
    mapOfPairs l1 = mapOfPairs l2 ∧
    (CvarObfuscated.opEqVec dg2 (CvarObfuscated.set vecI64Codec dv s0 xs) rhsV).1 =
      some (decide (xs = rhsV)) ∧
    (CvarObfuscated.opEqMemcmp aggCodec dg3 (CvarObfuscated.set aggCodec da s0 ag) rhsA).1 =
      some (decide (ag = rhsA)) ∧
    (semEqAgg ag rhsA → ag ≠ rhsA →
      (CvarObfuscated.opEqMemcmp aggCodec dg3 (CvarObfuscated.set aggCodec da s0 ag) rhsA).1 =
        some false) := by
  have hgm := read_after_set mapCodec m (decodeMap_encodeMap m hcanon)
    (by simpa [mapCodec] using encodeMap_length m)
    (by simp only [mapCodec]; omega) dm dg1 s0
  have hgv := read_after_set vecI64Codec xs (decodeVec_encodeVec xs hxs)
    (by simpa [vecI64Codec] using encodeVec_length xs)
    (by simp only [vecI64Codec]; omega) dv dg2 s0
  have hga := read_after_set aggCodec ag rfl (by simpa [aggCodec] using hag)
    (by norm_num [aggCodec]) da dg3 s0
  have hid : ∀ z : List Nat, aggCodec.enc z = z := fun _ => rfl
  have hE : (CvarObfuscated.opEqMemcmp aggCodec dg3
      (CvarObfuscated.set aggCodec da s0 ag) rhsA).1 = some (decide (ag = rhsA)) := by
    simp [CvarObfuscated.opEqMemcmp, hga, hid]
  refine ⟨?_, ?_, mapOfPairs_perm l1 l2 hperm hnd, ?_, hE, ?_⟩
  · simp [CvarObfuscated.opEqMap, hgm]
  · simp [CvarObfuscated.opNeqMap, hgm]
  · simp [CvarObfuscated.opEqVec, hgv]
  · intro _ hne
    rw [hE]
    simp [hne]

/-- Witness for C9: a two-entry map equal to itself, the same map built in
two insertion orders, the test vector `{INT64_MAX, 0, INT64_MIN}` (as
64-bit patterns), and two aggregates that differ only in the padding byte
(semantically equal, `memcmp`-unequal). -/
theorem C9_equality_semantics_witness :
    (CvarObfuscated.opEqMap d0 (CvarObfuscated.set mapCodec d0 initState
        [(0, 1), (2, 3)]) [(0, 1), (2, 3)]).1 = some (decide ([(0, 1), (2, 3)] = [(0, 1), (2, 3)])) ∧
    (CvarObfuscated.opNeqMap d0 (CvarObfuscated.set mapCodec d0 initState
        [(0, 1), (2, 3)]) [(0, 1), (2, 3)]).1 = some (decide (¬ [(0, 1), (2, 3)] = [(0, 1), (2, 3)])) ∧
    mapOfPairs [(1, 10), (0, 20)] = mapOfPairs [(0, 20), (1, 10)] ∧
    (CvarObfuscated.opEqVec d0 (CvarObfuscated.set vecI64Codec d0 initState
        [9223372036854775807, 0, 9223372036854775808])
        [9223372036854775807, 0, 9223372036854775808]).1 =
      some (decide (([9223372036854775807, 0, 9223372036854775808] : List Nat) =
        [9223372036854775807, 0, 9223372036854775808])) ∧
    (CvarObfuscated.opEqMemcmp aggCodec d0 (CvarObfuscated.set aggCodec d0 initState
        [1, 7, 2, 3]) [1, 9, 2, 3]).1 = some (decide (([1, 7, 2, 3] : List Nat) = [1, 9, 2, 3])) ∧
    (semEqAgg [1, 7, 2, 3] [1, 9, 2, 3] → ([1, 7, 2, 3] : List Nat) ≠ [1, 9, 2, 3] →
      (CvarObfuscated.opEqMemcmp aggCodec d0 (CvarObfuscated.set aggCodec d0 initState
        [1, 7, 2, 3]) [1, 9, 2, 3]).1 = some false) :=
  C9_equality_semantics [(0, 1), (2, 3)] [(0, 1), (2, 3)] [(1, 10), (0, 20)] [(0, 20), (1, 10)]
    [9223372036854775807, 0, 9223372036854775808] [9223372036854775807, 0, 9223372036854775808]
    [1, 7, 2, 3] [1, 9, 2, 3]
    (by constructor
        · decide
        · decide)
    (by decide) (by decide) (by decide) (by decide) (by decide) (by decide)
    d0 d0 d0 d0 d0 d0 initState
